import Mathlib

/-!
# Verification of the `graph_gui` node-graph editor core

Shallow embedding of the repository's core logic:

* `src/node_graph.rs` — the typed dataflow graph (`DemoNode`, `DemoViewer`):
  node catalogue, `DemoNode::update`, `DemoViewer::as_petgraph`,
  `DemoViewer::evaluate`, and the `SnarlViewer::connect` implementation.
* `src/execution_engine.rs` — the task dependency tracker (`TaskDag`).

Modelling conventions:

* Rust `f64` node values are modelled by `ℤ` (exact arithmetic; every value
  occurring in the specified scenarios is integral, and the code performs
  only addition on these values).
* The relevant fragment of the external `egui_snarl::Snarl` container is
  modelled as an association list of nodes plus a list of wires; the
  library's `connect`, `disconnect`, `remove_node`, `in_pin`/`out_pin`
  remote queries are modelled by the corresponding list operations
  (`Snarl.libConnect`, `Snarl.libDisconnect`, `Snarl.libRemoveNode`,
  `Snarl.inRemotes`, `Snarl.outRemotes`).  The library stores wires in a
  `HashSet`, so wire insertion is guarded by a membership test.
* `petgraph`'s `is_cyclic_directed` is modelled by a bounded reachability
  closure (`Snarl.isCyclicDirected`: some node is reachable from one of its
  successors), and `petgraph::visit::Topo` is modelled by a Kahn-style
  layered construction (`Snarl.topoOrder`) producing a topological order of
  the node-level graph; a node is emitted only after all of its
  predecessors, and nodes on cycles are never emitted — exactly the
  contract of `Topo`.  All theorems depend only on these properties of the
  order.
* Rust panics (`unreachable!`, `.expect`) abort before mutating any state;
  they are modelled as error results that return the state unchanged
  (`ConnectResult.invalid` / `ConnectResult.typeMismatch`,
  `CompleteResult.notPending`), matching the spec's error vocabulary.
-/

abbrev NodeId := ℕ

/-- Model of `egui_snarl::OutPinId`: an output-port coordinate. -/
structure OutPinId where
  node : NodeId
  output : ℕ
deriving DecidableEq, Repr

/-- Model of `egui_snarl::InPinId`: an input-port coordinate. -/
structure InPinId where
  node : NodeId
  input : ℕ
deriving DecidableEq, Repr

/-- The node catalogue of `src/node_graph.rs` (`enum DemoNode`). -/
inductive DemoNode where
  /-- Node with single input; displays the value of the input. -/
  | sink
  /-- Value node with a single output; the value is editable in UI. -/
  | number (value : ℤ)
  /-- Value node with a single output. -/
  | string (value : String)
  /-- The `Add { res: f64 }` node: binary sum with a cached result. -/
  | add (res : ℤ)
deriving DecidableEq, Repr

/-- Input port counts, `DemoViewer::inputs`. -/
def DemoNode.inputsCount : DemoNode → ℕ
  | .sink => 1
  | .number _ => 0
  | .string _ => 0
  | .add _ => 2

/-- Output port counts, `DemoViewer::outputs`. -/
def DemoNode.outputsCount : DemoNode → ℕ
  | .sink => 0
  | .number _ => 1
  | .string _ => 1
  | .add _ => 1

/-- Whether a node is an `Add` node (the only node kind with a cached,
recomputed output). -/
def DemoNode.isAdd : DemoNode → Bool
  | .add _ => true
  | _ => false

/-- The fragment of `egui_snarl::Snarl<DemoNode>` the core logic uses:
the nodes (an association list keyed by `NodeId`, mirroring the slot map)
and the set of wires (output pin → input pin). -/
structure Snarl where
  nodes : List (NodeId × DemoNode)
  wires : List (OutPinId × InPinId)
deriving DecidableEq, Repr

/-- Node lookup, `snarl[id]` (indexing panics on a missing id in Rust;
here it returns `none`). -/
def Snarl.getNode (s : Snarl) (id : NodeId) : Option DemoNode :=
  (s.nodes.find? (fun e => decide (e.1 = id))).map (·.2)

/-- Replace the payload of node `id` (used by `DemoNode::update` when it
writes the recomputed `res` back). -/
def Snarl.setNode (s : Snarl) (id : NodeId) (n : DemoNode) : Snarl :=
  { s with nodes := s.nodes.map (fun e => if e.1 = id then (id, n) else e) }

/-- The out-pins wired into a given input pin
(`snarl.in_pin(pin).remotes`). -/
def Snarl.inRemotes (s : Snarl) (t : InPinId) : List OutPinId :=
  (s.wires.filter (fun w => decide (w.2 = t))).map (·.1)

/-- The in-pins wired from a given output pin
(`snarl.out_pin(pin).remotes`). -/
def Snarl.outRemotes (s : Snarl) (f : OutPinId) : List InPinId :=
  (s.wires.filter (fun w => decide (w.1 = f))).map (·.2)

/-- Model of `egui_snarl`'s `Snarl::connect`: insert a wire (wires form a set). -/
def Snarl.libConnect (s : Snarl) (f : OutPinId) (t : InPinId) : Snarl :=
  if (f, t) ∈ s.wires then s else { s with wires := s.wires ++ [(f, t)] }

/-- Model of `egui_snarl`'s `Snarl::disconnect`: remove a wire. -/
def Snarl.libDisconnect (s : Snarl) (f : OutPinId) (t : InPinId) : Snarl :=
  { s with wires := s.wires.filter (fun w => decide (w ≠ (f, t))) }

/-- Model of `egui_snarl`'s `Snarl::remove_node`: drop the node and every wire
incident to it. -/
def Snarl.libRemoveNode (s : Snarl) (id : NodeId) : Snarl :=
  { nodes := s.nodes.filter (fun e => decide (e.1 ≠ id)),
    wires := s.wires.filter (fun w => decide (w.1.node ≠ id ∧ w.2.node ≠ id)) }

/-- Model of `egui_snarl`'s `Snarl::insert_node` (the UI passes a fresh id from the
slot map; the model takes the id as an argument). -/
def Snarl.libInsertNode (s : Snarl) (id : NodeId) (n : DemoNode) : Snarl :=
  { s with nodes := s.nodes ++ [(id, n)] }

/-- The numeric value an `Add` node reads off a remote output pin
(the `match snarl[pin.node]` inside `DemoNode::update`).  The `Sink` and
`String` arms are `unreachable!` in the source — a type-correct graph never
wires them into an `Add` input — and are modelled as `0`; every theorem
whose proof could meet those arms carries a well-formedness hypothesis
ruling them out. -/
def Snarl.numValue (s : Snarl) (p : OutPinId) : ℤ :=
  match s.getNode p.node with
  | some (.number v) => v
  | some (.add r) => r
  | _ => 0

/-- The sum an `Add` node recomputes:
`(0..2).map(in_pin).flat_map(remotes).map(value).sum()`. -/
def Snarl.addInputSum (s : Snarl) (id : NodeId) : ℤ :=
  (((List.range 2).flatMap (fun idx => s.inRemotes ⟨id, idx⟩)).map
    (fun p => s.numValue p)).sum

/-- Model of `DemoNode::update`: recompute one node's cached output in place.
Only `Add` nodes change; `Sink`, `Number` and `String` are no-ops. -/
def DemoNode.update (id : NodeId) (s : Snarl) : Snarl :=
  match s.getNode id with
  | some (.add _) => s.setNode id (.add (s.addInputSum id))
  | _ => s

/-- The node-level edge relation of the graph `DemoViewer::as_petgraph`
builds: there is an edge `m → n` iff some wire leaves an output pin of `m`
whose index is below `m`'s declared output count (`as_petgraph` only scans
pins `0..outputs(node)`) and enters a pin of `n`; both endpoints must be
nodes of the snarl (`as_petgraph` looks both ids up). -/
def Snarl.hasEdge (s : Snarl) (m n : NodeId) : Bool :=
  (s.getNode n).isSome &&
    s.wires.any (fun w =>
      decide (w.1.node = m) && decide (w.2.node = n) &&
        (match s.getNode w.1.node with
         | some nd => decide (w.1.output < nd.outputsCount)
         | none => false))

/-- The distinct node ids, in insertion order (`snarl.node_ids()`). -/
def Snarl.nodeIdsList (s : Snarl) : List NodeId :=
  (s.nodes.map (·.1)).dedup

def Snarl.nodeIdsF (s : Snarl) : Finset NodeId :=
  (s.nodes.map (·.1)).toFinset

/-- One step of forward reachability over the `as_petgraph` edge
relation. -/
def Snarl.reachStep (s : Snarl) (A : Finset NodeId) : Finset NodeId :=
  A ∪ s.nodeIdsF.filter (fun n => ∃ m ∈ A, s.hasEdge m n = true)

/-- Bounded forward-reachability closure (iterating one step per node
saturates). -/
def Snarl.reachFrom (s : Snarl) (A : Finset NodeId) : Finset NodeId :=
  (s.reachStep)^[s.nodeIdsF.card] A

/-- The forward successors of a node. -/
def Snarl.succs (s : Snarl) (n : NodeId) : Finset NodeId :=
  s.nodeIdsF.filter (fun k => s.hasEdge n k = true)

/-- Models `petgraph::algo::is_cyclic_directed` on the graph built by
`DemoViewer::as_petgraph`: the graph has a directed cycle iff some node is
reachable from one of its own successors (a nonempty path back to
itself). -/
def Snarl.isCyclicDirected (s : Snarl) : Bool :=
  decide (∃ n ∈ s.nodeIdsF, n ∈ s.reachFrom (s.succs n))

/-- Modelled from the spec (§4.2 `downstream_closure`): all nodes reachable
by following edges forward from `id`, inclusive of `id` itself.  The source
has no such function; the spec uses it to state the scoped-propagation
property. -/
def Snarl.downstreamClosure (s : Snarl) (id : NodeId) : Finset NodeId :=
  s.reachFrom {id}

/-- Whether `n` may be emitted from `remaining`: no incoming edge from a
still-remaining node. -/
def kahnStep (s : Snarl) (remaining : List NodeId) (n : NodeId) : Bool :=
  remaining.all (fun m => ! s.hasEdge m n)

/-- Layered Kahn construction modelling `petgraph::visit::Topo`: repeatedly
emit every remaining node with no incoming edge from a remaining node.  A
node is emitted only after all of its predecessors; nodes on cycles are
never emitted. -/
def kahnAux (s : Snarl) : ℕ → List NodeId → List NodeId
  | 0, _ => []
  | fuel + 1, remaining =>
    if (remaining.filter (kahnStep s remaining)).isEmpty then []
    else
      remaining.filter (kahnStep s remaining) ++
        kahnAux s fuel (remaining.filter (fun n => ! kahnStep s remaining n))

/-- The topological visitation order of `DemoViewer::evaluate`'s
`while let Some(node) = visitor.next(&graph)` loop. -/
def Snarl.topoOrder (s : Snarl) : List NodeId :=
  kahnAux s s.nodeIdsList.length s.nodeIdsList

/-- Model of `DemoViewer::evaluate`: build the petgraph once, then call
`DemoNode::update` on each node in topological order.  The `_start` seed
parameter is unused in the source (`_start: Option<NodeId>`). -/
def DemoViewer.evaluate (s : Snarl) (_start : Option NodeId) : Snarl :=
  (s.topoOrder).foldl (fun t k => DemoNode.update k t) s

/-- Result channel of the viewer's `connect`.  The source signals
rejections by panicking (`unreachable!`, modelled as `invalid` for the
"impossible pin" arms and `typeMismatch` for `"cannot add non-numbers"`)
or by silently returning before committing (`wouldCreateCycle`); in every
rejection case the snarl is left untouched. -/
inductive ConnectResult where
  | ok
  | typeMismatch
  | wouldCreateCycle
  | invalid
deriving DecidableEq, Repr

/-- The validation `match` at the top of `SnarlViewer::connect`, in source
arm order. -/
def connectValidate : DemoNode → DemoNode → ConnectResult
  | .sink, _ => .invalid
  | _, .sink => .ok
  | _, .number _ => .invalid
  | _, .string _ => .invalid
  | .number _, .add _ => .ok
  | .add _, .add _ => .ok
  | _, .add _ => .typeMismatch

/-- The tentative graph `connect` builds on a clone: remove every other
connection to the destination input, then insert the new wire. -/
def tentativeGraph (s : Snarl) (f : OutPinId) (t : InPinId) : Snarl :=
  ((s.inRemotes t).foldl (fun g r => g.libDisconnect r t) s).libConnect f t

/-- Model of `SnarlViewer::connect` for `DemoViewer`: validate the node-kind pair,
build the tentative graph, reject (returning the snarl unchanged) if the
tentative graph is cyclic, otherwise commit, update the destination node
and evaluate seeded at it. -/
def DemoViewer.connect (s : Snarl) (f : OutPinId) (t : InPinId) :
    ConnectResult × Snarl :=
  match s.getNode f.node, s.getNode t.node with
  | some fn, some tn =>
    match connectValidate fn tn with
    | .ok =>
      let temp := tentativeGraph s f t
      if temp.isCyclicDirected then (.wouldCreateCycle, s)
      else
        let s' := DemoNode.update t.node temp
        (.ok, DemoViewer.evaluate s' (some t.node))
    | r => (r, s)
  | _, _ => (.invalid, s)

/-- Well-formedness of the wire list: every wire's endpoints exist and its
pin indices are within the endpoint nodes' declared port counts.  Every
state reachable through the UI satisfies this (the UI only offers existing
pins). -/
def Snarl.wiresOk (s : Snarl) : Bool :=
  s.wires.all (fun w =>
    (match s.getNode w.1.node with
     | some ns => decide (w.1.output < ns.outputsCount)
     | none => false) &&
    (match s.getNode w.2.node with
     | some nd => decide (w.2.input < nd.inputsCount)
     | none => false))

/-- Well-formed snarl: distinct node ids (the slot map guarantees this),
set-like wires (the wire `HashSet` guarantees this), and wires within
declared port ranges. -/
def Snarl.Wf (s : Snarl) : Prop :=
  (s.nodes.map (·.1)).Nodup ∧ s.wires.Nodup ∧ s.wiresOk = true

instance (s : Snarl) : Decidable s.Wf := by
  unfold Snarl.Wf; infer_instance

/-- The numeric value the `Sink` arm of `show_input` displays: the value of
the single remote wired into the sink's input, if it is numeric
(`Number` value or `Add` cached result). -/
def Snarl.sinkValue (s : Snarl) (id : NodeId) : Option ℤ :=
  match s.inRemotes ⟨id, 0⟩ with
  | [] => none
  | [r] =>
    match s.getNode r.node with
    | some (.number v) => some v
    | some (.add res) => some res
    | _ => none
  | _ => none

/-- The fragment of `petgraph::Graph<NodeId, ()>` that `TaskDag::new`
consumes: the node ids and the directed edges between them. -/
structure PGraph where
  nodes : List ℕ
  edges : List (ℕ × ℕ)
deriving DecidableEq, Repr

/-- The task dependency tracker of `src/execution_engine.rs`:
`outstanding: HashMap<NodeId, HashSet<NodeId>>`, modelled as an association
list (distinct keys for graphs with distinct node ids) from task id to the
set of unresolved predecessors. -/
structure TaskDag where
  outstanding : List (ℕ × Finset ℕ)
deriving DecidableEq

namespace TaskDag

/-- Model of `TaskDag::new`: every node of the snapshot graph is tracked, with its
set of incoming neighbours as unresolved predecessors. -/
def new (g : PGraph) : TaskDag :=
  ⟨g.nodes.map (fun n => (n, ((g.edges.filter (fun e => decide (e.2 = n))).map (·.1)).toFinset))⟩

/-- The set of tracked task ids (the key set of `outstanding`). -/
def tracked (d : TaskDag) : Finset ℕ :=
  (d.outstanding.map (·.1)).toFinset

/-- Model of `TaskDag::ready_tasks`: tracked tasks with no outstanding
dependencies. -/
def ready_tasks (d : TaskDag) : Finset ℕ :=
  ((d.outstanding.filter (fun e => decide (e.2 = ∅))).map (·.1)).toFinset

/-- Model of `TaskDag::blocked_tasks`: tracked tasks with a nonempty set of
outstanding dependencies. -/
def blocked_tasks (d : TaskDag) : Finset ℕ :=
  ((d.outstanding.filter (fun e => decide (e.2 ≠ ∅))).map (·.1)).toFinset

/-- Result channel of `complete_task`.  On an untracked id the source
panics via `.expect("completed task was still pending")` before any
mutation; the panic is modelled as `notPending` with the tracker returned
unchanged (the spec's `NotPending` error). -/
inductive CompleteResult where
  | newlyReady (tasks : Finset ℕ)
  | notPending
deriving DecidableEq

/-- Model of `TaskDag::complete_task`: remove the completed task, erase it from
every remaining task's predecessor set, and return exactly the tasks whose
predecessor set held it and became empty. -/
def complete_task (d : TaskDag) (id : ℕ) : CompleteResult × TaskDag :=
  match d.outstanding.lookup id with
  | none => (.notPending, d)
  | some _ =>
    (.newlyReady
        (((d.outstanding.filter
            (fun e => decide (e.1 ≠ id) && decide (id ∈ e.2) && decide (e.2.erase id = ∅))).map
          (·.1)).toFinset),
      ⟨(d.outstanding.filter (fun e => decide (e.1 ≠ id))).map (fun e => (e.1, e.2.erase id))⟩)

/-- Driver for sequences of `complete_task` calls: threads the tracker and
accumulates the set of ids whose completion succeeded. -/
def runComplete : TaskDag × Finset ℕ → List ℕ → TaskDag × Finset ℕ
  | st, [] => st
  | (d, done), id :: rest =>
    match d.complete_task id with
    | (.notPending, d') => runComplete (d', done) rest
    | (.newlyReady _, d') => runComplete (d', insert id done) rest

end TaskDag

/-- Forget the cached result of an `Add` node; two snarls with the same
image under this map have identical graph structure (same nodes, kinds and
wires) and can differ only in `Add` caches. -/
def normShape : DemoNode → DemoNode
  | .add _ => .add 0
  | nd => nd

/-- Two snarls that agree on everything except (possibly) the cached
results of `Add` nodes. -/
def ShapeEq (a b : Snarl) : Prop :=
  a.wires = b.wires ∧ a.nodes.map (·.1) = b.nodes.map (·.1) ∧
    ∀ k, (a.getNode k).map normShape = (b.getNode k).map normShape

/-- Invariant maintained while folding `DemoNode.update` along the
topological order: the state is shape-equal to the start state, nodes not
yet visited are untouched, and every visited `Add` node's cache agrees with
the sum of its inputs in the current state. -/
def EvalInv (s : Snarl) (P : List NodeId) (t : Snarl) : Prop :=
  ShapeEq s t ∧ (∀ k, k ∉ P → t.getNode k = s.getNode k) ∧
    (∀ n ∈ P, ∀ r, t.getNode n = some (.add r) → r = t.addInputSum n)

/-- Modelled from the spec (§3 **DataType**): the closed set of value
kinds.  The source has no reified type enumeration; port kinds are implicit
in the `match` inside `connect`. -/
inductive DataType where
  | number
  | string
  | unknown
deriving DecidableEq, Repr

/-- Modelled from the spec (§3): a value of kind `a` may flow into a port
of kind `b` iff `a = b` or `b` is the wildcard `Unknown`. -/
def compatible_with (a b : DataType) : Bool :=
  decide (a = b) || decide (b = DataType.unknown)

/-- Modelled from the spec (§4.1): the declared kind of each output port of
each node kind (`Number`/`Add` produce numbers, `String` produces a string,
`Sink` has no outputs). -/
def DemoNode.outputKind : DemoNode → ℕ → Option DataType
  | .number _, 0 => some .number
  | .string _, 0 => some .string
  | .add _, 0 => some .number
  | _, _ => none

/-- Modelled from the spec (§4.1): the declared kind of each input port of
each node kind (`Sink` takes one wildcard input, `Add` takes two number
inputs, sources have no inputs). -/
def DemoNode.inputKind : DemoNode → ℕ → Option DataType
  | .sink, 0 => some .unknown
  | .add _, 0 => some .number
  | .add _, 1 => some .number
  | _, _ => none

/-- The single-writer invariant: any two wires with the same destination
input pin are the same wire. -/
def SingleWriter (s : Snarl) : Prop :=
  ∀ w₁ ∈ s.wires, ∀ w₂ ∈ s.wires, w₁.2 = w₂.2 → w₁ = w₂

/-- The graph-mutating operations the UI can perform on the snarl:
node insertion (graph menu), the viewer's validated `connect`, the
library-default `disconnect` (wire drag-off), and node removal (node
menu). -/
inductive GraphOp where
  | insertNode (id : NodeId) (n : DemoNode)
  | connect (f : OutPinId) (t : InPinId)
  | disconnect (f : OutPinId) (t : InPinId)
  | removeNode (id : NodeId)

def applyOp (s : Snarl) : GraphOp → Snarl
  | .insertNode id n => s.libInsertNode id n
  | .connect f t => (DemoViewer.connect s f t).2
  | .disconnect f t => s.libDisconnect f t
  | .removeNode id => s.libRemoveNode id

/-- The empty snarl the application starts from (`Snarl::new()`). -/
def emptySnarl : Snarl := ⟨[], []⟩

/-- A sequence of `connect` calls, applied in order. -/
def connectSeq (s : Snarl) (calls : List (OutPinId × InPinId)) : Snarl :=
  calls.foldl (fun a c => (DemoViewer.connect a c.1 c.2).2) s

/-! ### Concrete scenario states -/

/-- Scenario start state for C4: `Number(3)`, `Number(4)`, `Add`, `Sink`,
no wires yet. -/
def c4Start : Snarl :=
  ⟨[(0, .number 3), (1, .number 4), (2, .add 0), (3, .sink)], []⟩

/-- C4 scenario after `Number(3) → Sum.in0`. -/
def c4Step1 : ConnectResult × Snarl := DemoViewer.connect c4Start ⟨0, 0⟩ ⟨2, 0⟩

/-- C4 scenario after `Number(4) → Sum.in1`. -/
def c4Step2 : ConnectResult × Snarl := DemoViewer.connect c4Step1.2 ⟨1, 0⟩ ⟨2, 1⟩

/-- C4 scenario after `Sum → Sink`. -/
def c4Step3 : ConnectResult × Snarl := DemoViewer.connect c4Step2.2 ⟨2, 0⟩ ⟨3, 0⟩

/-- C2 counterexample state: a `Number(5)` feeding an `Add` whose cache is
stale (`0`), plus an unrelated `Sink` used as the seed. -/
def c2Snarl : Snarl :=
  ⟨[(0, .number 5), (1, .add 0), (2, .sink)], [(⟨0, 0⟩, ⟨1, 0⟩)]⟩

/-- C1 witness state: a lone `Add` node; connecting its output to its own
input would create a cycle. -/
def c1Snarl : Snarl := ⟨[(1, .add 0)], []⟩

/-- C3 witness state: a `String` source and an `Add` node. -/
def c3Snarl : Snarl := ⟨[(0, .string "x"), (1, .add 0)], []⟩

/-- C8 witness state: a small well-formed chain with a stale `Add`
cache. -/
def c8Snarl : Snarl :=
  ⟨[(0, .number 2), (1, .add 5), (2, .sink)],
    [(⟨0, 0⟩, ⟨1, 0⟩), (⟨1, 0⟩, ⟨2, 0⟩)]⟩

/-- The task DAG of the C5 scenario, `{A: [], B: [A], C: [A], D: [B, C]}`
with `A,B,C,D = 0,1,2,3`. -/
def c5Graph : PGraph := ⟨[0, 1, 2, 3], [(0, 1), (0, 2), (1, 3), (2, 3)]⟩

def c5Dag : TaskDag := TaskDag.new c5Graph

def c5After0 : TaskDag.CompleteResult × TaskDag := c5Dag.complete_task 0

def c5After1 : TaskDag.CompleteResult × TaskDag := c5After0.2.complete_task 1

def c5After2 : TaskDag.CompleteResult × TaskDag := c5After1.2.complete_task 2

/-! ## Basic lemmas about the snarl container -/

theorem find_setEntry_self (id : NodeId) (n : DemoNode) :
    ∀ l : List (NodeId × DemoNode),
      (l.map (fun e => if e.1 = id then (id, n) else e)).find?
          (fun e => decide (e.1 = id)) =
        (l.find? (fun e => decide (e.1 = id))).map (fun _ => (id, n))
  | [] => rfl
  | e :: rest => by
    by_cases h : e.1 = id
    · rw [List.map_cons, if_pos h,
        List.find?_cons_of_pos _ (by simp), List.find?_cons_of_pos _ (by simp [h])]
      rfl
    · rw [List.map_cons, if_neg h,
        List.find?_cons_of_neg _ (by simp [h]), List.find?_cons_of_neg _ (by simp [h])]
      exact find_setEntry_self id n rest

theorem find_setEntry_ne (id k : NodeId) (n : DemoNode) (hk : k ≠ id) :
    ∀ l : List (NodeId × DemoNode),
      (l.map (fun e => if e.1 = id then (id, n) else e)).find?
          (fun e => decide (e.1 = k)) =
        l.find? (fun e => decide (e.1 = k))
  | [] => rfl
  | e :: rest => by
    by_cases h : e.1 = id
    · rw [List.map_cons, if_pos h,
        List.find?_cons_of_neg _ (by simp [Ne.symm hk]),
        List.find?_cons_of_neg _ (by simp [h, Ne.symm hk])]
      exact find_setEntry_ne id k n hk rest
    · by_cases h2 : e.1 = k
      · rw [List.map_cons, if_neg h,
          List.find?_cons_of_pos _ (by simp [h2]), List.find?_cons_of_pos _ (by simp [h2])]
      · rw [List.map_cons, if_neg h,
          List.find?_cons_of_neg _ (by simp [h2]), List.find?_cons_of_neg _ (by simp [h2])]
        exact find_setEntry_ne id k n hk rest

theorem Snarl.getNode_setNode_self (s : Snarl) (id : NodeId) (n : DemoNode) :
    (s.setNode id n).getNode id = (s.getNode id).map (fun _ => n) := by
  unfold Snarl.setNode Snarl.getNode
  simp only [find_setEntry_self]
  cases s.nodes.find? (fun e => decide (e.1 = id)) <;> rfl

theorem Snarl.getNode_setNode_ne (s : Snarl) (id k : NodeId) (n : DemoNode)
    (hk : k ≠ id) : (s.setNode id n).getNode k = s.getNode k := by
  unfold Snarl.setNode Snarl.getNode
  simp only [find_setEntry_ne id k n hk]

theorem Snarl.wires_setNode (s : Snarl) (id : NodeId) (n : DemoNode) :
    (s.setNode id n).wires = s.wires := rfl

theorem keys_setEntry (id : NodeId) (n : DemoNode) :
    ∀ l : List (NodeId × DemoNode),
      (l.map (fun e => if e.1 = id then (id, n) else e)).map (·.1) = l.map (·.1)
  | [] => rfl
  | e :: rest => by
    by_cases h : e.1 = id
    · rw [List.map_cons, if_pos h, List.map_cons, List.map_cons,
        keys_setEntry id n rest]
      simp [h]
    · rw [List.map_cons, if_neg h, List.map_cons, List.map_cons,
        keys_setEntry id n rest]

theorem Snarl.keys_setNode (s : Snarl) (id : NodeId) (n : DemoNode) :
    (s.setNode id n).nodes.map (·.1) = s.nodes.map (·.1) :=
  keys_setEntry id n s.nodes

theorem setEntry_same (id : NodeId) (nd : DemoNode) :
    ∀ l : List (NodeId × DemoNode), (l.map (·.1)).Nodup →
      l.find? (fun e => decide (e.1 = id)) = some (id, nd) →
      l.map (fun e => if e.1 = id then (id, nd) else e) = l
  | [], _, h => by cases h
  | e :: rest, hnodup, h => by
    simp only [List.map_cons, List.nodup_cons] at hnodup
    by_cases he : e.1 = id
    · rw [List.find?_cons_of_pos _ (by simp [he])] at h
      have he2 : e = (id, nd) := Option.some.inj h
      have hrest : ∀ e2 ∈ rest, (if e2.1 = id then (id, nd) else e2) = e2 := by
        intro e2 he2mem
        have hne : e2.1 ≠ id := by
          intro hc
          apply hnodup.1
          rw [he, ← hc]
          exact List.mem_map_of_mem (·.1) he2mem
        rw [if_neg hne]
      rw [List.map_cons, if_pos he, List.map_congr_left hrest, List.map_id', ← he2]
    · rw [List.find?_cons_of_neg _ (by simp [he])] at h
      rw [List.map_cons, if_neg he, setEntry_same id nd rest hnodup.2 h]

theorem Snarl.setNode_same (s : Snarl) (id : NodeId) (nd : DemoNode)
    (hnodup : (s.nodes.map (·.1)).Nodup) (h : s.getNode id = some nd) :
    s.setNode id nd = s := by
  unfold Snarl.setNode
  unfold Snarl.getNode at h
  obtain ⟨e, hfind⟩ : ∃ e, s.nodes.find? (fun e => decide (e.1 = id)) = some e := by
    cases hf : s.nodes.find? (fun e => decide (e.1 = id)) with
    | none => rw [hf] at h; cases h
    | some e => exact ⟨e, rfl⟩
  have hkey : e.1 = id := by
    have := List.find?_some hfind
    simpa using this
  have hval : e.2 = nd := by
    rw [hfind] at h
    simpa using h
  have : e = (id, nd) := by
    cases e
    simp_all
  rw [this] at hfind
  cases s with
  | mk nodes wires =>
    simp only [Snarl.mk.injEq, and_true]
    exact setEntry_same id nd nodes hnodup hfind

/-! ## Frame and shape-preservation lemmas for `DemoNode.update` -/

theorem DemoNode.wires_update (id : NodeId) (s : Snarl) :
    (DemoNode.update id s).wires = s.wires := by
  unfold DemoNode.update
  split <;> rfl

theorem DemoNode.keys_update (id : NodeId) (s : Snarl) :
    (DemoNode.update id s).nodes.map (·.1) = s.nodes.map (·.1) := by
  unfold DemoNode.update
  split
  · exact Snarl.keys_setNode ..
  · rfl

theorem DemoNode.getNode_update_ne (id k : NodeId) (s : Snarl) (hk : k ≠ id) :
    (DemoNode.update id s).getNode k = s.getNode k := by
  unfold DemoNode.update
  split
  · exact Snarl.getNode_setNode_ne _ _ _ _ hk
  · rfl

theorem ShapeEq.refl (a : Snarl) : ShapeEq a a :=
  ⟨rfl, rfl, fun _ => rfl⟩

theorem ShapeEq.trans {a b c : Snarl} (h1 : ShapeEq a b) (h2 : ShapeEq b c) :
    ShapeEq a c :=
  ⟨h1.1.trans h2.1, h1.2.1.trans h2.2.1, fun k => (h1.2.2 k).trans (h2.2.2 k)⟩

theorem shapeEq_update (id : NodeId) (s : Snarl) :
    ShapeEq s (DemoNode.update id s) := by
  refine ⟨(DemoNode.wires_update id s).symm, (DemoNode.keys_update id s).symm, ?_⟩
  intro k
  unfold DemoNode.update
  split
  · rename_i r hr
    by_cases hk : k = id
    · subst hk
      rw [Snarl.getNode_setNode_self, hr]
      rfl
    · rw [Snarl.getNode_setNode_ne _ _ _ _ hk]
  · rfl

theorem shapeEq_foldl_update (L : List NodeId) (s : Snarl) :
    ShapeEq s (L.foldl (fun t k => DemoNode.update k t) s) := by
  induction L generalizing s with
  | nil => exact ShapeEq.refl s
  | cons n rest ih =>
    exact (shapeEq_update n s).trans (ih (DemoNode.update n s))

theorem shapeEq_evaluate (s : Snarl) (seed : Option NodeId) :
    ShapeEq s (DemoViewer.evaluate s seed) :=
  shapeEq_foldl_update s.topoOrder s

theorem outputsCount_normShape (nd : DemoNode) :
    (normShape nd).outputsCount = nd.outputsCount := by
  cases nd <;> rfl

theorem isAdd_normShape (nd : DemoNode) : (normShape nd).isAdd = nd.isAdd := by
  cases nd <;> rfl

theorem isSome_of_normShape {a b : Option DemoNode}
    (h : a.map normShape = b.map normShape) : a.isSome = b.isSome := by
  cases a <;> cases b <;> simp_all

theorem exists_outputs_congr {oa ob : Option DemoNode}
    (h : oa.map normShape = ob.map normShape) (o : ℕ) :
    (∃ nd, oa = some nd ∧ o < nd.outputsCount) ↔
      (∃ nd, ob = some nd ∧ o < nd.outputsCount) := by
  cases oa with
  | none => cases ob with
    | none => rfl
    | some nd => rw [Option.map_none', Option.map_some'] at h; cases h
  | some nda => cases ob with
    | none => rw [Option.map_some', Option.map_none'] at h; cases h
    | some ndb =>
      rw [Option.map_some', Option.map_some'] at h
      have h2 := Option.some.inj h
      have : nda.outputsCount = ndb.outputsCount := by
        rw [← outputsCount_normShape nda, h2, outputsCount_normShape]
      simp [this]

/-- Characterisation of the petgraph edge relation. -/
theorem hasEdge_iff (s : Snarl) (m n : NodeId) :
    s.hasEdge m n = true ↔
      ((s.getNode n).isSome = true ∧
        ∃ w ∈ s.wires, w.1.node = m ∧ w.2.node = n ∧
          ∃ nd, s.getNode m = some nd ∧ w.1.output < nd.outputsCount) := by
  unfold Snarl.hasEdge
  simp only [Bool.and_eq_true, List.any_eq_true, decide_eq_true_eq]
  constructor
  · rintro ⟨hsome, w, hw, ⟨⟨h1, h2⟩, h3⟩⟩
    refine ⟨hsome, w, hw, h1, h2, ?_⟩
    rw [h1] at h3
    cases hm : s.getNode m with
    | none => rw [hm] at h3; cases h3
    | some nd =>
      rw [hm] at h3
      exact ⟨nd, rfl, by simpa using h3⟩
  · rintro ⟨hsome, w, hw, h1, h2, nd, hm, hlt⟩
    refine ⟨hsome, w, hw, ⟨⟨h1, h2⟩, ?_⟩⟩
    rw [h1, hm]
    simpa using hlt

theorem hasEdge_congr {a b : Snarl} (h : ShapeEq a b) (m n : NodeId) :
    a.hasEdge m n = b.hasEdge m n := by
  obtain ⟨hw, hk, hg⟩ := h
  apply Bool.eq_iff_iff.mpr
  rw [hasEdge_iff, hasEdge_iff, hw]
  constructor
  · rintro ⟨hsome, w, hmem, h1, h2, hnd⟩
    exact ⟨(isSome_of_normShape (hg n)) ▸ hsome, w, hmem, h1, h2,
      (exists_outputs_congr (hg m) w.1.output).mp hnd⟩
  · rintro ⟨hsome, w, hmem, h1, h2, hnd⟩
    exact ⟨(isSome_of_normShape (hg n)) ▸ hsome, w, hmem, h1, h2,
      (exists_outputs_congr (hg m) w.1.output).mpr hnd⟩

theorem nodeIdsList_congr {a b : Snarl} (h : ShapeEq a b) :
    a.nodeIdsList = b.nodeIdsList := by
  unfold Snarl.nodeIdsList
  rw [h.2.1]

theorem nodeIdsF_congr {a b : Snarl} (h : ShapeEq a b) :
    a.nodeIdsF = b.nodeIdsF := by
  unfold Snarl.nodeIdsF
  rw [h.2.1]

theorem kahnStep_congr {a b : Snarl} (h : ShapeEq a b) (R : List NodeId) :
    kahnStep a R = kahnStep b R := by
  funext n
  unfold kahnStep
  have : (fun m => ! a.hasEdge m n) = (fun m => ! b.hasEdge m n) := by
    funext m
    rw [hasEdge_congr h]
  rw [this]

theorem kahnAux_congr {a b : Snarl} (h : ShapeEq a b) :
    ∀ fuel R, kahnAux a fuel R = kahnAux b fuel R := by
  intro fuel
  induction fuel with
  | zero => intro R; rfl
  | succ fuel ih =>
    intro R
    simp only [kahnAux, kahnStep_congr h, ih]

theorem topoOrder_congr {a b : Snarl} (h : ShapeEq a b) :
    a.topoOrder = b.topoOrder := by
  unfold Snarl.topoOrder
  rw [nodeIdsList_congr h, kahnAux_congr h]

theorem reachStep_congr {a b : Snarl} (h : ShapeEq a b) :
    a.reachStep = b.reachStep := by
  funext A
  unfold Snarl.reachStep
  rw [nodeIdsF_congr h]
  congr 1
  apply Finset.filter_congr
  intro n _
  constructor
  · rintro ⟨m, hm, he⟩
    exact ⟨m, hm, (hasEdge_congr h m n) ▸ he⟩
  · rintro ⟨m, hm, he⟩
    exact ⟨m, hm, (hasEdge_congr h m n).symm ▸ he⟩

theorem reachFrom_congr {a b : Snarl} (h : ShapeEq a b) :
    a.reachFrom = b.reachFrom := by
  funext A
  unfold Snarl.reachFrom
  rw [reachStep_congr h, nodeIdsF_congr h]

theorem succs_congr {a b : Snarl} (h : ShapeEq a b) (n : NodeId) :
    a.succs n = b.succs n := by
  unfold Snarl.succs
  rw [nodeIdsF_congr h]
  apply Finset.filter_congr
  intro k _
  rw [hasEdge_congr h]

theorem isCyclicDirected_congr {a b : Snarl} (h : ShapeEq a b) :
    a.isCyclicDirected = b.isCyclicDirected := by
  unfold Snarl.isCyclicDirected
  apply decide_eq_decide.mpr
  constructor
  · rintro ⟨n, hn, hr⟩
    refine ⟨n, (nodeIdsF_congr h) ▸ hn, ?_⟩
    rw [← reachFrom_congr h, ← succs_congr h]
    exact hr
  · rintro ⟨n, hn, hr⟩
    refine ⟨n, (nodeIdsF_congr h) ▸ hn, ?_⟩
    rw [reachFrom_congr h, succs_congr h]
    exact hr

/-! ## Properties of the topological order -/

theorem kahnAux_subset (s : Snarl) :
    ∀ fuel R n, n ∈ kahnAux s fuel R → n ∈ R := by
  intro fuel
  induction fuel with
  | zero => intro R n h; cases h
  | succ fuel ih =>
    intro R n h
    simp only [kahnAux] at h
    split at h
    · cases h
    · rcases List.mem_append.mp h with h | h
      · exact (List.mem_filter.mp h).1
      · exact (List.mem_filter.mp (ih _ n h)).1

theorem kahnAux_nodup (s : Snarl) :
    ∀ fuel R, R.Nodup → (kahnAux s fuel R).Nodup := by
  intro fuel
  induction fuel with
  | zero => intro R _; exact List.nodup_nil
  | succ fuel ih =>
    intro R hR
    simp only [kahnAux]
    split
    · exact List.nodup_nil
    · apply List.Nodup.append (hR.filter _) (ih _ (hR.filter _))
      intro a ha hb
      have h1 : kahnStep s R a = true := (List.mem_filter.mp ha).2
      have h2 : (! kahnStep s R a) = true :=
        (List.mem_filter.mp (kahnAux_subset s fuel _ a hb)).2
      rw [h1] at h2
      cases h2

theorem kahnAux_pred_before (s : Snarl) (m : NodeId) :
    ∀ fuel R n, s.hasEdge m n = true → m ∈ R → n ∈ kahnAux s fuel R →
      ∃ l₁ l₂, kahnAux s fuel R = l₁ ++ n :: l₂ ∧ m ∈ l₁ := by
  intro fuel
  induction fuel with
  | zero => intro R n _ _ h; cases h
  | succ fuel ih =>
    intro R n hE hmR hmem
    simp only [kahnAux] at hmem ⊢
    by_cases hempty : (R.filter (kahnStep s R)).isEmpty
    · rw [if_pos hempty] at hmem
      cases hmem
    · rw [if_neg hempty] at hmem ⊢
      rcases List.mem_append.mp hmem with hn | hn
      · exfalso
        have hks : kahnStep s R n = true := (List.mem_filter.mp hn).2
        have := List.all_eq_true.mp hks m hmR
        rw [hE] at this
        cases this
      · by_cases hmReady : m ∈ R.filter (kahnStep s R)
        · obtain ⟨r₁, r₂, hrec⟩ := List.append_of_mem hn
          refine ⟨R.filter (kahnStep s R) ++ r₁, r₂, ?_, List.mem_append.mpr (Or.inl hmReady)⟩
          rw [hrec, List.append_assoc]
        · have hmR' : m ∈ R.filter (fun k => ! kahnStep s R k) := by
            apply List.mem_filter.mpr
            refine ⟨hmR, ?_⟩
            cases hks : kahnStep s R m with
            | true => exact absurd (List.mem_filter.mpr ⟨hmR, hks⟩) hmReady
            | false => rfl
          obtain ⟨l₁, l₂, heq, hml⟩ := ih _ n hE hmR' hn
          refine ⟨R.filter (kahnStep s R) ++ l₁, l₂, ?_, List.mem_append.mpr (Or.inr hml)⟩
          rw [heq, List.append_assoc]

theorem topoOrder_nodup (s : Snarl) : s.topoOrder.Nodup :=
  kahnAux_nodup s _ _ (List.nodup_dedup _)

theorem mem_nodeIdsList_of_getNode {s : Snarl} {m : NodeId}
    (h : (s.getNode m).isSome = true) : m ∈ s.nodeIdsList := by
  unfold Snarl.getNode at h
  obtain ⟨e, he⟩ : ∃ e, s.nodes.find? (fun e => decide (e.1 = m)) = some e := by
    cases hf : s.nodes.find? (fun e => decide (e.1 = m)) with
    | none => rw [hf] at h; cases h
    | some e => exact ⟨e, rfl⟩
  have hmem : e ∈ s.nodes := List.mem_of_find?_eq_some he
  have hkey : e.1 = m := by simpa using List.find?_some he
  unfold Snarl.nodeIdsList
  exact List.mem_dedup.mpr (hkey ▸ List.mem_map_of_mem (·.1) hmem)

theorem hasEdge_source_mem {s : Snarl} {m n : NodeId}
    (h : s.hasEdge m n = true) : m ∈ s.nodeIdsList := by
  obtain ⟨-, w, -, -, -, nd, hnd, -⟩ := (hasEdge_iff s m n).mp h
  exact mem_nodeIdsList_of_getNode (by rw [hnd]; rfl)

theorem append_cons_eq_of_nodup {α : Type} {P Q l₁ l₂ : List α} {n : α} :
    P ++ n :: Q = l₁ ++ n :: l₂ → n ∉ P → n ∉ l₁ → P = l₁ := by
  induction P generalizing l₁ with
  | nil =>
    intro h hP hl
    cases l₁ with
    | nil => rfl
    | cons b bs =>
      exfalso
      have : n = b := by simpa using congrArg (·.head?) h
      exact hl (this ▸ List.mem_cons_self b bs)
  | cons a as ihp =>
    intro h hP hl
    cases l₁ with
    | nil =>
      exfalso
      have : n = a := by simpa using (congrArg (·.head?) h).symm
      exact hP (this ▸ List.mem_cons_self a as)
    | cons b bs =>
      simp only [List.cons_append, List.cons.injEq] at h
      rw [h.1, ihp h.2 (fun hc => hP (List.mem_cons_of_mem a hc))
        (fun hc => hl (List.mem_cons_of_mem b hc))]

/-- In the topological order, every petgraph predecessor of an emitted node
is emitted strictly before it. -/
theorem topoOrder_pred_emitted_earlier {s : Snarl} {m n : NodeId} {P Q : List NodeId}
    (hE : s.hasEdge m n = true) (hsplit : s.topoOrder = P ++ n :: Q) : m ∈ P := by
  have hmem : n ∈ s.topoOrder := by
    rw [hsplit]
    exact List.mem_append.mpr (Or.inr (List.mem_cons_self n Q))
  have hmR : m ∈ s.nodeIdsList := hasEdge_source_mem hE
  obtain ⟨l₁, l₂, heq, hml⟩ :=
    kahnAux_pred_before s m s.nodeIdsList.length s.nodeIdsList n hE hmR hmem
  have hnodup := topoOrder_nodup s
  have hP : n ∉ P := by
    rw [hsplit] at hnodup
    intro hc
    rcases (List.nodup_append.mp hnodup) with ⟨-, -, hdisj⟩
    exact hdisj hc (List.mem_cons_self n Q)
  have hl : n ∉ l₁ := by
    have h2 := hnodup
    rw [show s.topoOrder = l₁ ++ n :: l₂ from heq] at h2
    intro hc
    rcases (List.nodup_append.mp h2) with ⟨-, -, hdisj⟩
    exact hdisj hc (List.mem_cons_self n l₂)
  have heq2 : s.topoOrder = l₁ ++ n :: l₂ := heq
  have hcomb : P ++ n :: Q = l₁ ++ n :: l₂ := by rw [← hsplit]; exact heq2
  have : P = l₁ := append_cons_eq_of_nodup hcomb hP hl
  exact this ▸ hml

/-! ## Well-formedness and the evaluation invariant -/

theorem mem_wires_of_mem_inRemotes {s : Snarl} {t : InPinId} {p : OutPinId}
    (h : p ∈ s.inRemotes t) : (p, t) ∈ s.wires := by
  unfold Snarl.inRemotes at h
  obtain ⟨w, hw, hp⟩ := List.mem_map.mp h
  have h1 := (List.mem_filter.mp hw).1
  have h2 : w.2 = t := by simpa using (List.mem_filter.mp hw).2
  have : w = (p, t) := by
    cases w
    simp_all
  exact this ▸ h1

theorem wf_wire_edge {s : Snarl} (hwf : s.Wf) {w : OutPinId × InPinId}
    (hw : w ∈ s.wires) : s.hasEdge w.1.node w.2.node = true := by
  have hall := List.all_eq_true.mp hwf.2.2 w hw
  rw [Bool.and_eq_true] at hall
  obtain ⟨hsrc, hdst⟩ := hall
  apply (hasEdge_iff s w.1.node w.2.node).mpr
  constructor
  · cases hd : s.getNode w.2.node with
    | none => rw [hd] at hdst; cases hdst
    | some nd => rfl
  · refine ⟨w, hw, rfl, rfl, ?_⟩
    cases hsrcn : s.getNode w.1.node with
    | none => rw [hsrcn] at hsrc; cases hsrc
    | some ns =>
      rw [hsrcn] at hsrc
      exact ⟨ns, rfl, by simpa using hsrc⟩

theorem wf_remote_edge {s : Snarl} (hwf : s.Wf) {id : NodeId} {idx : ℕ}
    {p : OutPinId} (hp : p ∈ s.inRemotes ⟨id, idx⟩) :
    s.hasEdge p.node id = true :=
  wf_wire_edge hwf (mem_wires_of_mem_inRemotes hp)

theorem numValue_congr {a b : Snarl} {p : OutPinId}
    (h : a.getNode p.node = b.getNode p.node) : a.numValue p = b.numValue p := by
  unfold Snarl.numValue
  rw [h]

theorem inRemotes_congr {a b : Snarl} (h : a.wires = b.wires) (t : InPinId) :
    a.inRemotes t = b.inRemotes t := by
  unfold Snarl.inRemotes
  rw [h]

theorem remotesList_congr {a b : Snarl} (hw : a.wires = b.wires) (id : NodeId) :
    (List.range 2).flatMap (fun idx => a.inRemotes ⟨id, idx⟩) =
      (List.range 2).flatMap (fun idx => b.inRemotes ⟨id, idx⟩) := by
  have hfun : (fun idx => a.inRemotes ⟨id, idx⟩) = (fun idx => b.inRemotes ⟨id, idx⟩) := by
    funext idx
    exact inRemotes_congr hw ⟨id, idx⟩
  rw [hfun]

theorem addInputSum_congr {a b : Snarl} {id : NodeId} (hw : a.wires = b.wires)
    (hv : ∀ p ∈ (List.range 2).flatMap (fun idx => a.inRemotes ⟨id, idx⟩),
      a.numValue p = b.numValue p) :
    a.addInputSum id = b.addInputSum id := by
  unfold Snarl.addInputSum
  rw [← remotesList_congr hw id]
  exact congrArg List.sum (List.map_congr_left hv)

theorem evalInv_step {s : Snarl} (hwf : s.Wf) {P Q : List NodeId} {n : NodeId}
    {t : Snarl} (hsplit : s.topoOrder = P ++ n :: Q) (hinv : EvalInv s P t) :
    EvalInv s (P ++ [n]) (DemoNode.update n t) := by
  obtain ⟨hshape, hN, hF⟩ := hinv
  have hwires : t.wires = s.wires := hshape.1.symm
  have hnP : n ∉ P := by
    have hnodup := topoOrder_nodup s
    rw [hsplit] at hnodup
    intro hc
    exact (List.nodup_append.mp hnodup).2.2 hc (List.mem_cons_self n Q)
  have hpred_n : ∀ p ∈ (List.range 2).flatMap (fun idx => t.inRemotes ⟨n, idx⟩),
      p.node ∈ P := by
    intro p hp
    rw [remotesList_congr hwires] at hp
    obtain ⟨idx, -, hpidx⟩ := List.mem_flatMap.mp hp
    exact topoOrder_pred_emitted_earlier (wf_remote_edge hwf hpidx) hsplit
  have hpred_P : ∀ n' ∈ P,
      ∀ p ∈ (List.range 2).flatMap (fun idx => t.inRemotes ⟨n', idx⟩),
        p.node ≠ n := by
    intro n' hn' p hp
    rw [remotesList_congr hwires] at hp
    obtain ⟨idx, -, hpidx⟩ := List.mem_flatMap.mp hp
    obtain ⟨P₁, P₂, hP⟩ := List.append_of_mem hn'
    have hsplit2 : s.topoOrder = P₁ ++ n' :: (P₂ ++ n :: Q) := by
      rw [hsplit, hP, List.append_assoc, List.cons_append]
    have hmemP1 : p.node ∈ P₁ :=
      topoOrder_pred_emitted_earlier (wf_remote_edge hwf hpidx) hsplit2
    intro hc
    apply hnP
    rw [hP]
    exact List.mem_append.mpr (Or.inl (hc ▸ hmemP1))
  refine ⟨hshape.trans (shapeEq_update n t), ?_, ?_⟩
  · intro k hk
    have hkn : k ≠ n := fun hc =>
      hk (List.mem_append.mpr (Or.inr (hc ▸ List.mem_cons_self n [])))
    have hkP : k ∉ P := fun hc => hk (List.mem_append.mpr (Or.inl hc))
    rw [DemoNode.getNode_update_ne n k t hkn]
    exact hN k hkP
  · intro n' hn' r hr
    rcases List.mem_append.mp hn' with hn'P | hn'single
    · have hne : n' ≠ n := fun hc => hnP (hc ▸ hn'P)
      rw [DemoNode.getNode_update_ne n n' t hne] at hr
      have hsum : (DemoNode.update n t).addInputSum n' = t.addInputSum n' := by
        apply addInputSum_congr (DemoNode.wires_update n t)
        intro p hp
        rw [remotesList_congr (DemoNode.wires_update n t)] at hp
        exact numValue_congr
          (DemoNode.getNode_update_ne n p.node t (hpred_P n' hn'P p hp))
      rw [hsum]
      exact hF n' hn'P r hr
    · have hn'eq : n' = n := by simpa using hn'single
      subst hn'eq
      cases ht : t.getNode n' with
      | none =>
        simp only [DemoNode.update, ht] at hr
        cases hr
      | some nd =>
        cases nd with
        | add r0 =>
          simp only [DemoNode.update, ht] at hr ⊢
          rw [Snarl.getNode_setNode_self, ht] at hr
          have hreq : DemoNode.add (t.addInputSum n') = DemoNode.add r :=
            Option.some.inj hr
          have hr2 : r = t.addInputSum n' := (DemoNode.add.inj hreq).symm
          have hsum : (t.setNode n' (.add (t.addInputSum n'))).addInputSum n' =
              t.addInputSum n' := by
            apply addInputSum_congr (Snarl.wires_setNode t n' _)
            intro p hp
            rw [remotesList_congr (Snarl.wires_setNode t n' _)] at hp
            have hmemP : p.node ∈ P := hpred_n p hp
            have hne : p.node ≠ n' := fun hc => hnP (hc ▸ hmemP)
            exact numValue_congr (Snarl.getNode_setNode_ne t n' p.node _ hne)
          rw [hsum]
          exact hr2
        | sink =>
          simp only [DemoNode.update, ht] at hr
          cases hr
        | number v =>
          simp only [DemoNode.update, ht] at hr
          cases hr
        | string v =>
          simp only [DemoNode.update, ht] at hr
          cases hr

theorem evalInv_fold {s : Snarl} (hwf : s.Wf) :
    ∀ (Q P : List NodeId) (t : Snarl), s.topoOrder = P ++ Q → EvalInv s P t →
      EvalInv s (P ++ Q) (Q.foldl (fun a k => DemoNode.update k a) t) := by
  intro Q
  induction Q with
  | nil => intro P t _ hinv; simpa using hinv
  | cons n Q' ih =>
    intro P t h hinv
    have hstep := evalInv_step hwf h hinv
    have h2 : s.topoOrder = (P ++ [n]) ++ Q' := by
      rw [h, List.append_assoc, List.singleton_append]
    have hres := ih (P ++ [n]) (DemoNode.update n t) h2 hstep
    rw [List.append_assoc, List.singleton_append] at hres
    simpa [List.foldl_cons] using hres

theorem evalInv_evaluate {s : Snarl} (hwf : s.Wf) :
    EvalInv s s.topoOrder (DemoViewer.evaluate s none) := by
  have hbase : EvalInv s [] s :=
    ⟨ShapeEq.refl s, fun _ _ => rfl, fun n hn => absurd hn (List.not_mem_nil n)⟩
  have := evalInv_fold hwf s.topoOrder [] s rfl hbase
  simpa using this

theorem update_noop {t : Snarl} {n : NodeId}
    (hnodup : (t.nodes.map (·.1)).Nodup)
    (h : ∀ r, t.getNode n = some (.add r) → r = t.addInputSum n) :
    DemoNode.update n t = t := by
  unfold DemoNode.update
  split
  · rename_i r hr
    have hais := h r hr
    rw [← hais]
    exact Snarl.setNode_same t n _ hnodup (by rw [hr])
  · rfl

theorem foldl_update_noop {t : Snarl} :
    ∀ L : List NodeId, (∀ n ∈ L, DemoNode.update n t = t) →
      L.foldl (fun a k => DemoNode.update k a) t = t := by
  intro L
  induction L with
  | nil => intro _; rfl
  | cons n L' ih =>
    intro h
    rw [List.foldl_cons, h n (List.mem_cons_self n L')]
    exact ih (fun k hk => h k (List.mem_cons_of_mem n hk))

theorem normShape_eq_of_not_add {nd nd2 : DemoNode}
    (h : normShape nd2 = normShape nd) (hna : nd.isAdd = false) : nd2 = nd := by
  cases nd <;> cases nd2 <;> simp_all [normShape, DemoNode.isAdd]

theorem getNode_eq_of_shapeEq_not_add {a b : Snarl} (h : ShapeEq a b)
    {k : NodeId} {nd : DemoNode} (hget : a.getNode k = some nd)
    (hna : nd.isAdd = false) : b.getNode k = some nd := by
  have hk := h.2.2 k
  rw [hget, Option.map_some'] at hk
  cases hb : b.getNode k with
  | none => rw [hb, Option.map_none'] at hk; cases hk
  | some nd2 =>
    rw [hb, Option.map_some'] at hk
    exact congrArg some (normShape_eq_of_not_add (Option.some.inj hk).symm hna)

/-- Claim C8: with no intervening mutation, a second `evaluate(graph, None)`
reproduces exactly the state of the first, and evaluation changes nothing
but `Add` caches: the wires, the node-id set, and every non-`Add` node are
untouched. -/
theorem c8_evaluate_idempotent (s : Snarl) (hwf : s.Wf) :
    DemoViewer.evaluate (DemoViewer.evaluate s none) none =
        DemoViewer.evaluate s none ∧
      (DemoViewer.evaluate s none).wires = s.wires ∧
      (DemoViewer.evaluate s none).nodes.map (·.1) = s.nodes.map (·.1) ∧
      (∀ k nd, s.getNode k = some nd → nd.isAdd = false →
        (DemoViewer.evaluate s none).getNode k = some nd) := by
  obtain ⟨hshape, hN, hF⟩ := evalInv_evaluate hwf
  refine ⟨?_, hshape.1.symm, hshape.2.1.symm, ?_⟩
  · have htopo : (DemoViewer.evaluate s none).topoOrder = s.topoOrder :=
      (topoOrder_congr hshape).symm
    have hform : DemoViewer.evaluate (DemoViewer.evaluate s none) none =
        (s.topoOrder).foldl (fun a k => DemoNode.update k a)
          (DemoViewer.evaluate s none) := by
      show ((DemoViewer.evaluate s none).topoOrder).foldl
          (fun a k => DemoNode.update k a) (DemoViewer.evaluate s none) = _
      rw [htopo]
    rw [hform]
    apply foldl_update_noop
    intro n hn
    apply update_noop
    · rw [← hshape.2.1]
      exact hwf.1
    · intro r hr
      exact hF n hn r hr
  · intro k nd hget hna
    exact getNode_eq_of_shapeEq_not_add hshape hget hna

/-- Witness for C8 at a concrete well-formed graph. -/
theorem c8_witness :
    c8Snarl.Wf ∧
      DemoViewer.evaluate (DemoViewer.evaluate c8Snarl none) none =
        DemoViewer.evaluate c8Snarl none :=
  ⟨by decide, (c8_evaluate_idempotent c8Snarl (by decide)).1⟩

/-- Claim C10: `evaluate` ignores its seed argument (`_start` is unused in
the source), so evaluation seeded at any node produces exactly the state
produced by the unseeded full evaluation. -/
theorem c10_evaluate_seed_ignored (s : Snarl) (n : NodeId) :
    DemoViewer.evaluate s (some n) = DemoViewer.evaluate s none := rfl

/-- Counterexample to **C2** as stated: in `c2Snarl`, node `1` (a stale
`Add` fed by `Number(5)`) is not in `downstream_closure(2)` (the `Sink`
seed), yet `evaluate(graph, Some(2))` changes its cached output. -/
theorem c2_counterexample :
    (1 : NodeId) ∉ c2Snarl.downstreamClosure 2 ∧
      (DemoViewer.evaluate c2Snarl (some 2)).getNode 1 ≠ c2Snarl.getNode 1 := by
  decide

/-- Claim C2, amended: the seed does not restrict propagation — `evaluate`
recomputes every node, so a node outside `downstream_closure(n)` may change
(see the counterexample).  What does hold is a kind-based frame property:
after `evaluate(graph, Some(n))` every non-`Add` node's state and the whole
edge set are bit-identical to before the call. -/
theorem c2_amended_evaluate_frame (s : Snarl) (n : NodeId) (k : NodeId)
    (nd : DemoNode) (hget : s.getNode k = some nd) (hna : nd.isAdd = false) :
    (DemoViewer.evaluate s (some n)).getNode k = some nd ∧
      (DemoViewer.evaluate s (some n)).wires = s.wires := by
  have hshape := shapeEq_evaluate s (some n)
  exact ⟨getNode_eq_of_shapeEq_not_add hshape hget hna, hshape.1.symm⟩

/-- Witness for the amended C2 at a concrete input. -/
theorem c2_amended_witness :
    c2Snarl.getNode 2 = some .sink ∧ DemoNode.sink.isAdd = false ∧
      (DemoViewer.evaluate c2Snarl (some 2)).getNode 2 = some .sink :=
  ⟨by decide, by decide,
    (c2_amended_evaluate_frame c2Snarl 2 2 .sink (by decide) (by decide)).1⟩

theorem connect_result_acyclic_or_unchanged (s : Snarl) (f : OutPinId)
    (t : InPinId) :
    (DemoViewer.connect s f t).2 = s ∨
      ((DemoViewer.connect s f t).2).isCyclicDirected = false := by
  cases hf : s.getNode f.node with
  | none => left; simp only [DemoViewer.connect, hf]
  | some fn =>
    cases ht : s.getNode t.node with
    | none => left; simp only [DemoViewer.connect, hf, ht]
    | some tn =>
      cases hv : connectValidate fn tn with
      | ok =>
        by_cases hcyc : (tentativeGraph s f t).isCyclicDirected = true
        · left; simp only [DemoViewer.connect, hf, ht, hv, if_pos hcyc]
        · right
          have hfalse : (tentativeGraph s f t).isCyclicDirected = false := by
            cases hb : (tentativeGraph s f t).isCyclicDirected with
            | false => rfl
            | true => exact absurd hb hcyc
          have hres : (DemoViewer.connect s f t).2 =
              DemoViewer.evaluate
                (DemoNode.update t.node (tentativeGraph s f t)) (some t.node) := by
            simp only [DemoViewer.connect, hf, ht, hv, if_neg hcyc]
          rw [hres,
            ← isCyclicDirected_congr
              ((shapeEq_update t.node (tentativeGraph s f t)).trans
                (shapeEq_evaluate _ (some t.node)))]
          exact hfalse
      | typeMismatch => left; simp only [DemoViewer.connect, hf, ht, hv]
      | wouldCreateCycle => left; simp only [DemoViewer.connect, hf, ht, hv]
      | invalid => left; simp only [DemoViewer.connect, hf, ht, hv]

/-- Claim C1: a `connect` whose tentative edge insertion would make the node
graph cyclic is rejected with the snarl returned exactly as it was (no
node, edge or cached value changes); consequently any sequence of `connect`
calls starting from an acyclic graph leaves the graph acyclic. -/
theorem c1_connect_acyclicity :
    (∀ (s : Snarl) (f : OutPinId) (t : InPinId),
        (tentativeGraph s f t).isCyclicDirected = true →
          (DemoViewer.connect s f t).1 ≠ .ok ∧ (DemoViewer.connect s f t).2 = s) ∧
      ∀ (s : Snarl) (calls : List (OutPinId × InPinId)),
        s.isCyclicDirected = false → (connectSeq s calls).isCyclicDirected = false := by
  constructor
  · intro s f t hcyc
    cases hf : s.getNode f.node with
    | none => simp only [DemoViewer.connect, hf]; exact ⟨(fun hc => by cases hc), trivial⟩
    | some fn =>
      cases ht : s.getNode t.node with
      | none => simp only [DemoViewer.connect, hf, ht]; exact ⟨(fun hc => by cases hc), trivial⟩
      | some tn =>
        cases hv : connectValidate fn tn with
        | ok =>
          simp only [DemoViewer.connect, hf, ht, hv, if_pos hcyc]
          exact ⟨(fun hc => by cases hc), trivial⟩
        | typeMismatch =>
          simp only [DemoViewer.connect, hf, ht, hv]
          exact ⟨(fun hc => by cases hc), trivial⟩
        | wouldCreateCycle =>
          simp only [DemoViewer.connect, hf, ht, hv]
          exact ⟨(fun hc => by cases hc), trivial⟩
        | invalid =>
          simp only [DemoViewer.connect, hf, ht, hv]
          exact ⟨(fun hc => by cases hc), trivial⟩
  · intro s calls
    induction calls generalizing s with
    | nil => intro h; exact h
    | cons c rest ih =>
      intro h
      have hstep := connect_result_acyclic_or_unchanged s c.1 c.2
      show (connectSeq (DemoViewer.connect s c.1 c.2).2 rest).isCyclicDirected = false
      rcases hstep with heq | hacyc
      · rw [heq]; exact ih s h
      · exact ih _ hacyc

/-- Witness for C1: a self-loop on an `Add` node is rejected and the graph
is untouched; the C4 build sequence keeps the graph acyclic. -/
theorem c1_witness :
    (tentativeGraph c1Snarl ⟨1, 0⟩ ⟨1, 0⟩).isCyclicDirected = true ∧
      (DemoViewer.connect c1Snarl ⟨1, 0⟩ ⟨1, 0⟩).1 ≠ .ok ∧
      (DemoViewer.connect c1Snarl ⟨1, 0⟩ ⟨1, 0⟩).2 = c1Snarl ∧
      c4Start.isCyclicDirected = false ∧
      (connectSeq c4Start
          [(⟨0, 0⟩, ⟨2, 0⟩), (⟨1, 0⟩, ⟨2, 1⟩), (⟨2, 0⟩, ⟨3, 0⟩)]).isCyclicDirected =
        false :=
  ⟨by decide,
    (c1_connect_acyclicity.1 c1Snarl ⟨1, 0⟩ ⟨1, 0⟩ (by decide)).1,
    (c1_connect_acyclicity.1 c1Snarl ⟨1, 0⟩ ⟨1, 0⟩ (by decide)).2,
    by decide,
    c1_connect_acyclicity.2 c4Start
      [(⟨0, 0⟩, ⟨2, 0⟩), (⟨1, 0⟩, ⟨2, 1⟩), (⟨2, 0⟩, ⟨3, 0⟩)] (by decide)⟩

theorem outputKind_cases {fn : DemoNode} {o : ℕ} {a : DataType}
    (h : fn.outputKind o = some a) :
    o = 0 ∧ ((∃ v, fn = .number v ∧ a = .number) ∨
      (∃ v, fn = .string v ∧ a = .string) ∨
      (∃ r, fn = .add r ∧ a = .number)) := by
  cases fn <;> cases o <;> simp_all [DemoNode.outputKind]

theorem inputKind_cases {tn : DemoNode} {o : ℕ} {b : DataType}
    (h : tn.inputKind o = some b) :
    (tn = .sink ∧ o = 0 ∧ b = .unknown) ∨
      (∃ r, tn = .add r ∧ (o = 0 ∨ o = 1) ∧ b = .number) := by
  cases tn with
  | sink => cases o <;> simp_all [DemoNode.inputKind]
  | number v => cases o <;> simp_all [DemoNode.inputKind]
  | string v => cases o <;> simp_all [DemoNode.inputKind]
  | add r =>
    cases o with
    | zero => simp_all [DemoNode.inputKind]
    | succ o' => cases o' <;> simp_all [DemoNode.inputKind]

/-- Claim C3: `connect` never succeeds when the source port kind is
incompatible with the destination port kind (compatible iff equal or the
destination is the wildcard `Unknown`); the only such reachable pairing —
a `String` output into an `Add` input — is rejected as a type mismatch
with the snarl returned unchanged. -/
theorem c3_type_safety (s : Snarl) (f : OutPinId) (t : InPinId)
    (fn tn : DemoNode) (a b : DataType)
    (hf : s.getNode f.node = some fn) (ht : s.getNode t.node = some tn)
    (ha : fn.outputKind f.output = some a) (hb : tn.inputKind t.input = some b)
    (hcomp : compatible_with a b = false) :
    DemoViewer.connect s f t = (.typeMismatch, s) := by
  obtain ⟨-, hsrc⟩ := outputKind_cases ha
  rcases inputKind_cases hb with ⟨htn, -, hbu⟩ | ⟨r, htn, -, hbn⟩
  · -- destination is the Sink: its input kind is the wildcard, always
    -- compatible, contradicting `hcomp`.
    subst hbu
    rcases hsrc with ⟨v, -, hav⟩ | ⟨v, -, hav⟩ | ⟨v, -, hav⟩ <;> subst hav <;>
      simp [compatible_with] at hcomp
  · subst hbn
    rcases hsrc with ⟨v, hfn, hav⟩ | ⟨v, hfn, hav⟩ | ⟨v, hfn, hav⟩
    · subst hav; simp [compatible_with] at hcomp
    · subst hfn; subst htn
      simp only [DemoViewer.connect, hf, ht]
      rfl
    · subst hav; simp [compatible_with] at hcomp

/-- Witness for C3: connecting a `String` source into an `Add` input is a
`TypeMismatch` and leaves the graph unchanged. -/
theorem c3_witness :
    compatible_with .string .number = false ∧
      DemoViewer.connect c3Snarl ⟨0, 0⟩ ⟨1, 0⟩ = (.typeMismatch, c3Snarl) :=
  ⟨by decide,
    c3_type_safety c3Snarl ⟨0, 0⟩ ⟨1, 0⟩ (.string "x") (.add 0) .string .number
      (by decide) (by decide) (by decide) (by decide) (by decide)⟩

theorem sum_of_short (s : Snarl) : ∀ l : List OutPinId, l.length ≤ 1 →
    (l.map s.numValue).sum = (l.head?.map s.numValue).getD 0
  | [], _ => rfl
  | [a], _ => by simp
  | a :: b :: rest, h => by
    simp only [List.length_cons] at h
    omega

/-- Claim C4: recomputing a `Sum` (`Add`) node sets its cached output to the
arithmetic sum of the values present on its (single-writer) connected
inputs, an unconnected input contributing zero; and in the scenario
`Number(3) → Sum.in0`, `Number(4) → Sum.in1`, `Sum → Sink`, all connects
succeed, the `Sum` node's cached output is `7` and the `Sink` displays
`7`. -/
theorem c4_sum_node_semantics :
    (∀ (s : Snarl) (id : NodeId) (r : ℤ),
        s.getNode id = some (.add r) →
        (s.inRemotes ⟨id, 0⟩).length ≤ 1 →
        (s.inRemotes ⟨id, 1⟩).length ≤ 1 →
        (DemoNode.update id s).getNode id =
          some (.add (((s.inRemotes ⟨id, 0⟩).head?.map s.numValue).getD 0 +
            ((s.inRemotes ⟨id, 1⟩).head?.map s.numValue).getD 0))) ∧
      c4Step1.1 = .ok ∧ c4Step2.1 = .ok ∧ c4Step3.1 = .ok ∧
      c4Step2.2.getNode 2 = some (.add 7) ∧
      c4Step3.2.getNode 2 = some (.add 7) ∧
      c4Step3.2.sinkValue 3 = some 7 := by
  refine ⟨?_, by decide, by decide, by decide, by decide, by decide, by decide⟩
  intro s id r h h0 h1
  simp only [DemoNode.update, h]
  rw [Snarl.getNode_setNode_self, h, Option.map_some']
  have hsum : s.addInputSum id =
      ((s.inRemotes ⟨id, 0⟩).head?.map s.numValue).getD 0 +
        ((s.inRemotes ⟨id, 1⟩).head?.map s.numValue).getD 0 := by
    unfold Snarl.addInputSum
    have hr2 : (List.range 2) = [0, 1] := rfl
    rw [hr2]
    simp only [List.flatMap_cons, List.flatMap_nil, List.append_nil,
      List.map_append, List.sum_append]
    rw [sum_of_short _ _ h0, sum_of_short _ _ h1]
  rw [hsum]

/-- Witness for C4's universally quantified part at the concrete scenario
graph. -/
theorem c4_witness :
    c4Step2.2.getNode 2 = some (.add 7) ∧
      (DemoNode.update 2 c4Step2.2).getNode 2 =
        some (.add
          (((c4Step2.2.inRemotes ⟨2, 0⟩).head?.map c4Step2.2.numValue).getD 0 +
            ((c4Step2.2.inRemotes ⟨2, 1⟩).head?.map c4Step2.2.numValue).getD 0)) :=
  ⟨by decide,
    c4_sum_node_semantics.1 c4Step2.2 2 7 (by decide) (by decide) (by decide)⟩

theorem foldl_disconnect_mem (t : InPinId) :
    ∀ (rs : List OutPinId) (g : Snarl) (w : OutPinId × InPinId),
      (w ∈ (rs.foldl (fun g r => g.libDisconnect r t) g).wires ↔
        (w ∈ g.wires ∧ ∀ r ∈ rs, w ≠ (r, t))) := by
  intro rs
  induction rs with
  | nil => intro g w; simp
  | cons r rs' ih =>
    intro g w
    rw [List.foldl_cons]
    rw [ih (g.libDisconnect r t) w]
    unfold Snarl.libDisconnect
    simp only [List.mem_filter, decide_eq_true_eq]
    constructor
    · rintro ⟨⟨hmem, hne⟩, hall⟩
      refine ⟨hmem, ?_⟩
      intro r' hr'
      rcases List.mem_cons.mp hr' with h | h
      · exact h ▸ hne
      · exact hall r' h
    · rintro ⟨hmem, hall⟩
      exact ⟨⟨hmem, hall r (List.mem_cons_self r rs')⟩,
        fun r' hr' => hall r' (List.mem_cons_of_mem r hr')⟩

theorem base_no_dest {s : Snarl} {t : InPinId} {w : OutPinId × InPinId}
    (hw : w ∈ ((s.inRemotes t).foldl (fun g r => g.libDisconnect r t) s).wires) :
    w ∈ s.wires ∧ w.2 ≠ t := by
  obtain ⟨hmem, hall⟩ := (foldl_disconnect_mem t (s.inRemotes t) s w).mp hw
  refine ⟨hmem, ?_⟩
  intro hdest
  have hw1 : w.1 ∈ s.inRemotes t := by
    unfold Snarl.inRemotes
    have hfmem : w ∈ s.wires.filter (fun w => decide (w.2 = t)) :=
      List.mem_filter.mpr ⟨hmem, by simpa using hdest⟩
    exact List.mem_map_of_mem (·.1) hfmem
  apply hall w.1 hw1
  cases w
  simp_all

theorem mem_tentative {s : Snarl} {f : OutPinId} {t : InPinId}
    {w : OutPinId × InPinId} (hw : w ∈ (tentativeGraph s f t).wires) :
    w = (f, t) ∨ (w ∈ s.wires ∧ w.2 ≠ t) := by
  unfold tentativeGraph Snarl.libConnect at hw
  split at hw
  · exact Or.inr (base_no_dest hw)
  · rcases List.mem_append.mp hw with h | h
    · exact Or.inr (base_no_dest h)
    · exact Or.inl (by simpa using h)

theorem singleWriter_of_wires_eq {a b : Snarl} (h : a.wires = b.wires)
    (hsw : SingleWriter b) : SingleWriter a := by
  intro w1 h1 w2 h2 hd
  rw [h] at h1 h2
  exact hsw w1 h1 w2 h2 hd

theorem singleWriter_tentative {s : Snarl} (hsw : SingleWriter s)
    (f : OutPinId) (t : InPinId) : SingleWriter (tentativeGraph s f t) := by
  intro w1 h1 w2 h2 hd
  rcases mem_tentative h1 with he1 | ⟨hm1, hne1⟩ <;>
    rcases mem_tentative h2 with he2 | ⟨hm2, hne2⟩
  · rw [he1, he2]
  · exfalso; apply hne2; rw [← hd, he1]
  · exfalso; apply hne1; rw [hd, he2]
  · exact hsw w1 hm1 w2 hm2 hd

theorem connect_wires_cases (s : Snarl) (f : OutPinId) (t : InPinId) :
    (DemoViewer.connect s f t).2 = s ∨
      ((DemoViewer.connect s f t).2.wires = (tentativeGraph s f t).wires ∧
        (DemoViewer.connect s f t).1 = .ok) := by
  cases hf : s.getNode f.node with
  | none => left; simp only [DemoViewer.connect, hf]
  | some fn =>
    cases ht : s.getNode t.node with
    | none => left; simp only [DemoViewer.connect, hf, ht]
    | some tn =>
      cases hv : connectValidate fn tn with
      | ok =>
        by_cases hcyc : (tentativeGraph s f t).isCyclicDirected = true
        · left; simp only [DemoViewer.connect, hf, ht, hv, if_pos hcyc]
        · right
          constructor
          · have hres : (DemoViewer.connect s f t).2 =
                DemoViewer.evaluate
                  (DemoNode.update t.node (tentativeGraph s f t)) (some t.node) := by
              simp only [DemoViewer.connect, hf, ht, hv, if_neg hcyc]
            rw [hres]
            exact ((shapeEq_update t.node (tentativeGraph s f t)).trans
              (shapeEq_evaluate _ (some t.node))).1.symm
          · simp only [DemoViewer.connect, hf, ht, hv, if_neg hcyc]
      | typeMismatch => left; simp only [DemoViewer.connect, hf, ht, hv]
      | wouldCreateCycle => left; simp only [DemoViewer.connect, hf, ht, hv]
      | invalid => left; simp only [DemoViewer.connect, hf, ht, hv]

theorem connect_ok_wires {s : Snarl} {f : OutPinId} {t : InPinId}
    (h : (DemoViewer.connect s f t).1 = .ok) :
    (DemoViewer.connect s f t).2.wires = (tentativeGraph s f t).wires := by
  cases hf : s.getNode f.node with
  | none => exfalso; simp only [DemoViewer.connect, hf] at h; cases h
  | some fn =>
    cases ht : s.getNode t.node with
    | none => exfalso; simp only [DemoViewer.connect, hf, ht] at h; cases h
    | some tn =>
      cases hv : connectValidate fn tn with
      | ok =>
        by_cases hcyc : (tentativeGraph s f t).isCyclicDirected = true
        · exfalso
          simp only [DemoViewer.connect, hf, ht, hv, if_pos hcyc] at h
          cases h
        · have hres : (DemoViewer.connect s f t).2 =
              DemoViewer.evaluate
                (DemoNode.update t.node (tentativeGraph s f t)) (some t.node) := by
            simp only [DemoViewer.connect, hf, ht, hv, if_neg hcyc]
          rw [hres]
          exact ((shapeEq_update t.node (tentativeGraph s f t)).trans
            (shapeEq_evaluate _ (some t.node))).1.symm
      | typeMismatch =>
        exfalso; simp only [DemoViewer.connect, hf, ht, hv] at h; cases h
      | wouldCreateCycle =>
        exfalso; simp only [DemoViewer.connect, hf, ht, hv] at h; cases h
      | invalid =>
        exfalso; simp only [DemoViewer.connect, hf, ht, hv] at h; cases h

theorem singleWriter_applyOp {s : Snarl} (hsw : SingleWriter s) (op : GraphOp) :
    SingleWriter (applyOp s op) := by
  cases op with
  | insertNode id n => exact hsw
  | connect f t =>
    rcases connect_wires_cases s f t with heq | ⟨hw, -⟩
    · rw [show applyOp s (GraphOp.connect f t) = (DemoViewer.connect s f t).2 from rfl, heq]
      exact hsw
    · exact singleWriter_of_wires_eq hw (singleWriter_tentative hsw f t)
  | disconnect f t =>
    intro w1 h1 w2 h2 hd
    have hm1 := (List.mem_filter.mp h1).1
    have hm2 := (List.mem_filter.mp h2).1
    exact hsw w1 hm1 w2 hm2 hd
  | removeNode id =>
    intro w1 h1 w2 h2 hd
    have hm1 := (List.mem_filter.mp h1).1
    have hm2 := (List.mem_filter.mp h2).1
    exact hsw w1 hm1 w2 hm2 hd

/-- Claim C7: after any sequence of insert/connect/disconnect/remove
operations from the empty editor state, at most one wire targets any given
input pin (any two wires with the same destination are equal); moreover a
successful `connect` removes whatever wire previously occupied the
destination input, so the new wire is the only one into that pin. -/
theorem c7_single_writer :
    (∀ ops : List GraphOp, SingleWriter (ops.foldl applyOp emptySnarl)) ∧
      ∀ (s : Snarl) (f : OutPinId) (t : InPinId),
        (DemoViewer.connect s f t).1 = .ok →
        ∀ w ∈ (DemoViewer.connect s f t).2.wires, w.2 = t → w.1 = f := by
  constructor
  · have hind : ∀ (l : List GraphOp) (s : Snarl), SingleWriter s →
        SingleWriter (l.foldl applyOp s) := by
      intro l
      induction l with
      | nil => intro s h; exact h
      | cons op rest ih =>
        intro s h
        rw [List.foldl_cons]
        exact ih _ (singleWriter_applyOp h op)
    intro ops
    apply hind
    intro w1 h1
    cases h1
  · intro s f t hok w hw hdest
    rw [connect_ok_wires hok] at hw
    rcases mem_tentative hw with he | ⟨-, hne⟩
    · rw [he]
    · exact absurd hdest hne

/-- Witness for C7's successful-connect clause at a concrete input. -/
theorem c7_witness :
    (DemoViewer.connect c4Start ⟨0, 0⟩ ⟨2, 0⟩).1 = .ok ∧
      ∀ w ∈ (DemoViewer.connect c4Start ⟨0, 0⟩ ⟨2, 0⟩).2.wires,
        w.2 = (⟨2, 0⟩ : InPinId) → w.1 = (⟨0, 0⟩ : OutPinId) :=
  ⟨by decide, c7_single_writer.2 c4Start ⟨0, 0⟩ ⟨2, 0⟩ (by decide)⟩

/-! ## Association-list lemmas for the task tracker -/

theorem lookup_cons_pos {e : ℕ × Finset ℕ} {rest : List (ℕ × Finset ℕ)}
    {k : ℕ} (h : e.1 = k) : (e :: rest).lookup k = some e.2 := by
  obtain ⟨a, b⟩ := e
  simp only at h
  subst h
  simp [List.lookup_cons]

theorem lookup_cons_neg {e : ℕ × Finset ℕ} {rest : List (ℕ × Finset ℕ)}
    {k : ℕ} (h : e.1 ≠ k) : (e :: rest).lookup k = rest.lookup k := by
  obtain ⟨a, b⟩ := e
  simp only at h
  simp only [List.lookup_cons]
  have hb : (k == a) = false := beq_eq_false_iff_ne.mpr (fun hc => h hc.symm)
  rw [hb]

theorem lookup_eq_none_iff (k : ℕ) :
    ∀ l : List (ℕ × Finset ℕ), l.lookup k = none ↔ k ∉ l.map (·.1)
  | [] => by simp
  | e :: rest => by
    by_cases h : e.1 = k
    · rw [lookup_cons_pos h]
      simp [h]
    · rw [lookup_cons_neg h, lookup_eq_none_iff k rest]
      simp only [List.map_cons, List.mem_cons]
      constructor
      · intro hr hc
        rcases hc with hc | hc
        · exact h hc.symm
        · exact hr hc
      · intro hr hc
        exact hr (Or.inr hc)

theorem lookup_eq_some_mem {k : ℕ} {v : Finset ℕ} :
    ∀ {l : List (ℕ × Finset ℕ)}, l.lookup k = some v → (k, v) ∈ l := by
  intro l
  induction l with
  | nil => intro h; cases h
  | cons e rest ih =>
    intro h
    by_cases he : e.1 = k
    · rw [lookup_cons_pos he] at h
      have heq : e = (k, v) := by
        cases e
        simp_all
      exact heq ▸ List.mem_cons_self e rest
    · rw [lookup_cons_neg he] at h
      exact List.mem_cons_of_mem e (ih h)

theorem mem_lookup_of_nodup :
    ∀ {l : List (ℕ × Finset ℕ)}, (l.map (·.1)).Nodup →
      ∀ {k : ℕ} {v : Finset ℕ}, (k, v) ∈ l → l.lookup k = some v := by
  intro l
  induction l with
  | nil => intro _ k v h; cases h
  | cons e rest ih =>
    intro hnodup k v h
    simp only [List.map_cons, List.nodup_cons] at hnodup
    rcases List.mem_cons.mp h with he | ht
    · rw [lookup_cons_pos (by rw [← he])]
      rw [← he]
    · have hk : k ∈ rest.map (·.1) := by
        have : (k, v).1 ∈ rest.map (·.1) := List.mem_map_of_mem (·.1) ht
        simpa using this
      have hne : e.1 ≠ k := fun hc => hnodup.1 (hc ▸ hk)
      rw [lookup_cons_neg hne]
      exact ih hnodup.2 ht

theorem lookup_removed (id k : ℕ) (hk : k ≠ id) :
    ∀ l : List (ℕ × Finset ℕ),
      ((l.filter (fun e => decide (e.1 ≠ id))).map
          (fun e => (e.1, e.2.erase id))).lookup k =
        (l.lookup k).map (fun d => d.erase id)
  | [] => rfl
  | e :: rest => by
    by_cases he : e.1 = id
    · have hne : e.1 ≠ k := fun hc => hk ((he ▸ hc : (id : ℕ) = k)).symm
      rw [List.filter_cons_of_neg (by simp [he]), lookup_cons_neg hne,
        lookup_removed id k hk rest]
    · rw [List.filter_cons_of_pos (by simp [he]), List.map_cons]
      by_cases hek : e.1 = k
      · rw [lookup_cons_pos (by simpa using hek), lookup_cons_pos hek]
        rfl
      · rw [lookup_cons_neg (by simpa using hek), lookup_cons_neg hek]
        exact lookup_removed id k hk rest

theorem keys_removed (id : ℕ) :
    ∀ l : List (ℕ × Finset ℕ),
      ((l.filter (fun e => decide (e.1 ≠ id))).map
          (fun e => (e.1, e.2.erase id))).map (·.1) =
        (l.map (·.1)).filter (fun k => decide (k ≠ id))
  | [] => rfl
  | e :: rest => by
    by_cases he : e.1 = id
    · rw [List.filter_cons_of_neg (by simp [he]), List.map_cons,
        List.filter_cons_of_neg (by simp [he])]
      exact keys_removed id rest
    · rw [List.filter_cons_of_pos (by simp [he]), List.map_cons, List.map_cons,
        List.map_cons, List.filter_cons_of_pos (by simp [he])]
      rw [keys_removed id rest]

theorem toFinset_filter_ne (l : List ℕ) (id : ℕ) :
    (l.filter (fun k => decide (k ≠ id))).toFinset = l.toFinset.erase id := by
  ext x
  simp only [List.mem_toFinset, List.mem_filter, decide_eq_true_eq,
    Finset.mem_erase]
  exact and_comm

/-- Claim C6: completing a task id that is not currently tracked (already
completed or never existed) fails — the source hits
`.expect("completed task was still pending")`, modelled as the
`NotPending` error — and the tracker is unchanged by the failed call. -/
theorem c6_complete_not_pending (d : TaskDag) (id : ℕ) (h : id ∉ d.tracked) :
    d.complete_task id = (.notPending, d) := by
  have hl : d.outstanding.lookup id = none := by
    rw [lookup_eq_none_iff]
    intro hc
    exact h (by simpa [TaskDag.tracked, List.mem_toFinset] using hc)
  simp only [TaskDag.complete_task, hl]

/-- Witness for C6: completing the unknown task `9` on the scenario tracker
is `NotPending` and leaves the tracker unchanged. -/
theorem c6_witness :
    (9 : ℕ) ∉ c5Dag.tracked ∧ c5Dag.complete_task 9 = (.notPending, c5Dag) :=
  ⟨by decide, c6_complete_not_pending c5Dag 9 (by decide)⟩

/-- Claim C5: completing a tracked task removes it from the tracked universe,
erases it from every remaining task's predecessor set, and returns exactly
the tasks whose predecessor set was nonempty and became empty through this
call; in the scenario DAG `{A:[], B:[A], C:[A], D:[B,C]}` the initial ready
set is `{A}`, `complete_task(A)` returns `{B, C}`, `complete_task(B)`
returns `{}`, and `complete_task(C)` returns `{D}`. -/
theorem c5_complete_task_semantics :
    (∀ (d : TaskDag) (id : ℕ) (deps : Finset ℕ),
        (d.outstanding.map (·.1)).Nodup →
        d.outstanding.lookup id = some deps →
        ((d.complete_task id).2.tracked = d.tracked.erase id ∧
          (∀ (k : ℕ) (deps0 : Finset ℕ), k ≠ id →
            d.outstanding.lookup k = some deps0 →
            (d.complete_task id).2.outstanding.lookup k = some (deps0.erase id)) ∧
          ∃ R, (d.complete_task id).1 = .newlyReady R ∧
            ∀ k, k ∈ R ↔ ∃ deps0, k ≠ id ∧
              d.outstanding.lookup k = some deps0 ∧
              deps0 ≠ ∅ ∧ deps0.erase id = ∅)) ∧
      c5Dag.ready_tasks = {0} ∧
      c5After0.1 = .newlyReady {1, 2} ∧
      c5After1.1 = .newlyReady ∅ ∧
      c5After2.1 = .newlyReady {3} := by
  refine ⟨?_, by decide, by decide, by decide, by decide⟩
  intro d id deps hnodup hl
  refine ⟨?_, ?_, ?_⟩
  · simp only [TaskDag.complete_task, hl, TaskDag.tracked]
    rw [keys_removed, toFinset_filter_ne]
  · intro k deps0 hk hlk
    simp only [TaskDag.complete_task, hl]
    rw [lookup_removed id k hk, hlk]
    rfl
  · refine ⟨((d.outstanding.filter
        (fun e => decide (e.1 ≠ id) && decide (id ∈ e.2) &&
          decide (e.2.erase id = ∅))).map (·.1)).toFinset,
      by simp only [TaskDag.complete_task, hl], ?_⟩
    intro k
    simp only [List.mem_toFinset, List.mem_map, List.mem_filter,
      Bool.and_eq_true, decide_eq_true_eq]
    constructor
    · rintro ⟨e, ⟨hmem, ⟨⟨hne, hid⟩, hempty⟩⟩, hkey⟩
      refine ⟨e.2, hkey ▸ hne, ?_, ?_, hempty⟩
      · apply mem_lookup_of_nodup hnodup
        have : e = (e.1, e.2) := rfl
        rw [hkey] at this
        exact this ▸ hmem
      · exact Finset.ne_empty_of_mem hid
    · rintro ⟨deps0, hne, hlk, hnonempty, hempty⟩
      refine ⟨(k, deps0), ⟨lookup_eq_some_mem hlk, ⟨⟨hne, ?_⟩, hempty⟩⟩, rfl⟩
      obtain ⟨x, hx⟩ := Finset.nonempty_iff_ne_empty.mpr hnonempty
      by_cases hxid : x = id
      · exact hxid ▸ hx
      · exact absurd (Finset.mem_erase.mpr ⟨hxid, hx⟩) (by rw [hempty]; simp)

/-- Witness for C5's universally quantified part at the scenario DAG. -/
theorem c5_witness :
    (c5Dag.outstanding.map (·.1)).Nodup ∧
      c5Dag.outstanding.lookup 0 = some ∅ ∧
      (c5Dag.complete_task 0).2.tracked = c5Dag.tracked.erase 0 :=
  ⟨by decide, by decide,
    (c5_complete_task_semantics.1 c5Dag 0 ∅ (by decide) (by decide)).1⟩

theorem ready_blocked_partition (d : TaskDag) :
    d.ready_tasks ∪ d.blocked_tasks = d.tracked := by
  ext x
  simp only [TaskDag.ready_tasks, TaskDag.blocked_tasks, TaskDag.tracked,
    Finset.mem_union, List.mem_toFinset, List.mem_map, List.mem_filter,
    decide_eq_true_eq]
  constructor
  · rintro (⟨e, ⟨hm, -⟩, hk⟩ | ⟨e, ⟨hm, -⟩, hk⟩) <;> exact ⟨e, hm, hk⟩
  · rintro ⟨e, hm, hk⟩
    by_cases h : e.2 = ∅
    · exact Or.inl ⟨e, ⟨hm, h⟩, hk⟩
    · exact Or.inr ⟨e, ⟨hm, h⟩, hk⟩

theorem ready_blocked_disjoint {d : TaskDag}
    (hnodup : (d.outstanding.map (·.1)).Nodup) :
    Disjoint d.ready_tasks d.blocked_tasks := by
  rw [Finset.disjoint_left]
  intro x hx1 hx2
  simp only [TaskDag.ready_tasks, TaskDag.blocked_tasks, List.mem_toFinset,
    List.mem_map, List.mem_filter, decide_eq_true_eq] at hx1 hx2
  obtain ⟨e1, ⟨hm1, he1⟩, hk1⟩ := hx1
  obtain ⟨e2, ⟨hm2, he2⟩, hk2⟩ := hx2
  have hl1 : d.outstanding.lookup x = some e1.2 :=
    mem_lookup_of_nodup hnodup (show (x, e1.2) ∈ d.outstanding by
      have : e1 = (x, e1.2) := by cases e1; simp_all
      exact this ▸ hm1)
  have hl2 : d.outstanding.lookup x = some e2.2 :=
    mem_lookup_of_nodup hnodup (show (x, e2.2) ∈ d.outstanding by
      have : e2 = (x, e2.2) := by cases e2; simp_all
      exact this ▸ hm2)
  rw [hl1] at hl2
  exact he2 ((Option.some.inj hl2) ▸ he1)

theorem keys_new (g : PGraph) :
    (TaskDag.new g).outstanding.map (·.1) = g.nodes := by
  unfold TaskDag.new
  rw [List.map_map]
  exact List.map_id'' (fun x => rfl) g.nodes

theorem erase_sdiff_insert (T done : Finset ℕ) (id : ℕ) :
    (T \ done).erase id = T \ insert id done := by
  ext x
  simp only [Finset.mem_erase, Finset.mem_sdiff, Finset.mem_insert]
  constructor
  · rintro ⟨hne, hT, hdone⟩
    exact ⟨hT, fun hc => hc.elim hne hdone⟩
  · rintro ⟨hT, hnot⟩
    exact ⟨fun hc => hnot (Or.inl hc), hT, fun hc => hnot (Or.inr hc)⟩

theorem runComplete_invariant (T : Finset ℕ) :
    ∀ (ids : List ℕ) (d : TaskDag) (done : Finset ℕ),
      (d.outstanding.map (·.1)).Nodup → d.tracked = T \ done →
      ((TaskDag.runComplete (d, done) ids).1.outstanding.map (·.1)).Nodup ∧
        (TaskDag.runComplete (d, done) ids).1.tracked =
          T \ (TaskDag.runComplete (d, done) ids).2 := by
  intro ids
  induction ids with
  | nil => intro d done hn ht; exact ⟨hn, ht⟩
  | cons id rest ih =>
    intro d done hn ht
    cases hl : d.outstanding.lookup id with
    | none =>
      have hcomp : d.complete_task id = (.notPending, d) := by
        simp only [TaskDag.complete_task, hl]
      have hrun : TaskDag.runComplete (d, done) (id :: rest) =
          TaskDag.runComplete (d, done) rest := by
        simp only [TaskDag.runComplete, hcomp]
      rw [hrun]
      exact ih d done hn ht
    | some deps =>
      have hcomp : d.complete_task id =
          (.newlyReady (((d.outstanding.filter
              (fun e => decide (e.1 ≠ id) && decide (id ∈ e.2) &&
                decide (e.2.erase id = ∅))).map (·.1)).toFinset),
            ⟨(d.outstanding.filter (fun e => decide (e.1 ≠ id))).map
              (fun e => (e.1, e.2.erase id))⟩) := by
        simp only [TaskDag.complete_task, hl]
      have hrun : TaskDag.runComplete (d, done) (id :: rest) =
          TaskDag.runComplete
            (⟨(d.outstanding.filter (fun e => decide (e.1 ≠ id))).map
                (fun e => (e.1, e.2.erase id))⟩, insert id done) rest := by
        simp only [TaskDag.runComplete, hcomp]
      rw [hrun]
      apply ih
      · show (((d.outstanding.filter (fun e => decide (e.1 ≠ id))).map
          (fun e => (e.1, e.2.erase id))).map (·.1)).Nodup
        rw [keys_removed]
        exact hn.filter _
      · show ((((d.outstanding.filter (fun e => decide (e.1 ≠ id))).map
          (fun e => (e.1, e.2.erase id))).map (·.1)).toFinset) = T \ insert id done
        rw [keys_removed, toFinset_filter_ne]
        have : (d.outstanding.map (·.1)).toFinset = d.tracked := rfl
        rw [this, ht, erase_sdiff_insert]

/-- Claim C9: for a tracker built from a DAG with (distinct) task set `T`, at
every point of any sequence of `complete_task` calls the union of
`ready_tasks` and `blocked_tasks` equals `T` minus the successfully
completed tasks, and the two sets are disjoint. -/
theorem c9_tracker_conservation (g : PGraph) (ids : List ℕ)
    (hnodup : g.nodes.Nodup) :
    (TaskDag.runComplete (TaskDag.new g, ∅) ids).1.ready_tasks ∪
        (TaskDag.runComplete (TaskDag.new g, ∅) ids).1.blocked_tasks =
      g.nodes.toFinset \ (TaskDag.runComplete (TaskDag.new g, ∅) ids).2 ∧
      Disjoint (TaskDag.runComplete (TaskDag.new g, ∅) ids).1.ready_tasks
        (TaskDag.runComplete (TaskDag.new g, ∅) ids).1.blocked_tasks := by
  have hkeys : (TaskDag.new g).outstanding.map (·.1) = g.nodes := keys_new g
  have hn : ((TaskDag.new g).outstanding.map (·.1)).Nodup := by
    rw [hkeys]; exact hnodup
  have ht : (TaskDag.new g).tracked = g.nodes.toFinset \ ∅ := by
    rw [TaskDag.tracked, hkeys, Finset.sdiff_empty]
  obtain ⟨hn', ht'⟩ :=
    runComplete_invariant g.nodes.toFinset ids (TaskDag.new g) ∅ hn ht
  exact ⟨(ready_blocked_partition _).trans ht', ready_blocked_disjoint hn'⟩

/-- Witness for C9 on the scenario DAG after completing `A` then `B`. -/
theorem c9_witness :
    c5Graph.nodes.Nodup ∧
      (TaskDag.runComplete (TaskDag.new c5Graph, ∅) [0, 1]).1.ready_tasks ∪
          (TaskDag.runComplete (TaskDag.new c5Graph, ∅) [0, 1]).1.blocked_tasks =
        c5Graph.nodes.toFinset \
          (TaskDag.runComplete (TaskDag.new c5Graph, ∅) [0, 1]).2 :=
  ⟨by decide, (c9_tracker_conservation c5Graph [0, 1] (by decide)).1⟩
